import Mathlib

set_option maxHeartbeats 1000000

/-!
Verification development for the relay and framing engine of `roky.py`
(the Roku Debugger client).  Bytes are modelled as `Nat` values below 256
and character strings as lists of Unicode code points (`List Nat`), so the
whole development is executable.  Each definition is a direct translation
of the corresponding piece of the source:

* `printable`, `formatCodePoint`, `consoleFormat` — the display encoder
  (`consoleFormat`, roky.py lines 320–374);
* `pyDecodeWith` — the UTF-8 decoder used through `bytes.decode` with the
  `backslashreplace` / `replace` error handlers;
* `isContByte`, `expectedCont`, `nContOf`, `stripTrail`, `readerStep`,
  `readerRun`, `readerIteration` — the Roku reader thread's per-iteration
  reassembly, logging and rendering (`rokuReaderThread`, lines 377–456);
* `frame`, `isSubstr`, `consoleStep` — the console thread's line framing
  and reserved-command handling (`consoleThread`, lines 486–550);
* `encodeChar`, `encodeUtf8` — UTF-8 encoding, used for `str.encode()` and
  to quantify over valid UTF-8 byte streams.
-/

/-- The `printable` table of roky.py (lines 115–120), copied entry for
entry: index = ASCII code, value 1 = printed as-is.  TAB (9), LF (10),
CR (13) and 0x20–0x7E carry 1; every other index below 0x80 carries 0. -/
def printable : List Nat :=
  [0, 0, 0, 0, 0, 0, 0, 0, 0, 1, 1, 0, 0, 1, 0, 0, 0, 0, 0, 0, 0, 0, 0, 0, 0, 0, 0, 0, 0, 0, 0, 0,
   1, 1, 1, 1, 1, 1, 1, 1, 1, 1, 1, 1, 1, 1, 1, 1, 1, 1, 1, 1, 1, 1, 1, 1, 1, 1, 1, 1, 1, 1, 1, 1,
   1, 1, 1, 1, 1, 1, 1, 1, 1, 1, 1, 1, 1, 1, 1, 1, 1, 1, 1, 1, 1, 1, 1, 1, 1, 1, 1, 1, 1, 1, 1, 1,
   1, 1, 1, 1, 1, 1, 1, 1, 1, 1, 1, 1, 1, 1, 1, 1, 1, 1, 1, 1, 1, 1, 1, 1, 1, 1, 1, 1, 1, 1, 1, 0]

/-- One lowercase hexadecimal digit, as a code point (`{:x}` formatting). -/
def hexDigit (n : Nat) : Nat := if n < 10 then 48 + n else 87 + n

/-- Two lowercase hex digits of a value below 0x100 (`{:02x}`). -/
def hex2 (n : Nat) : List Nat := [hexDigit (n / 16 % 16), hexDigit (n % 16)]

/-- Four lowercase hex digits of a value below 0x10000 (`{:04x}`). -/
def hex4 (n : Nat) : List Nat :=
  [hexDigit (n / 4096 % 16), hexDigit (n / 256 % 16), hexDigit (n / 16 % 16), hexDigit (n % 16)]

/-- The high surrogate computed by `consoleFormat` (roky.py line 363):
`hi10 = (((bt20 & 0xFFC00) >> 10) & 0x3FF) + 0xD800` with `bt20 = cp - 0x10000`. -/
def surrHi (cp : Nat) : Nat := ((((cp - 0x10000) &&& 0xFFC00) >>> 10) &&& 0x3FF) + 0xD800

/-- The low surrogate computed by `consoleFormat` (roky.py line 364):
`lo10 = (bt20 & 0x3FF) + 0xDC00`. -/
def surrLo (cp : Nat) : Nat := ((cp - 0x10000) &&& 0x3FF) + 0xDC00

/-- The body of `consoleFormat`'s per-character loop (roky.py lines 335–369):
what one decoded code point contributes to the console output.  `92, 120,
117` are the code points of backslash, `x` and `u`. -/
def formatCodePoint (cp : Nat) : List Nat :=
  if cp < 0x80 then
    if printable.getD cp 0 = 1 then [cp] else [92, 120] ++ hex2 cp
  else if cp ≤ 0x513 then [cp]
  else if cp < 0x10000 then [92, 117] ++ hex4 cp
  else if cp < 0x110000 then [92, 117] ++ hex4 (surrHi cp) ++ [92, 117] ++ hex4 (surrLo cp)
  else [0xFFFD]

/-- The text the `backslashreplace` error handler substitutes for one
undecodable byte: the four characters `\xhh`. -/
def escByte (b : Nat) : List Nat := [92, 120] ++ hex2 b

/-- Smallest byte allowed after a three-byte lead (0xA0 after 0xE0 rejects
overlong forms, otherwise 0x80), as in CPython's UTF-8 decoder. -/
def lowCont3 (b : Nat) : Nat := if b = 0xE0 then 0xA0 else 0x80

/-- Largest byte allowed after a three-byte lead (0x9F after 0xED rejects
encoded surrogates, otherwise 0xBF). -/
def highCont3 (b : Nat) : Nat := if b = 0xED then 0x9F else 0xBF

/-- Smallest byte allowed after a four-byte lead (0x90 after 0xF0). -/
def lowCont4 (b : Nat) : Nat := if b = 0xF0 then 0x90 else 0x80

/-- Largest byte allowed after a four-byte lead (0x8F after 0xF4 keeps the
result below 0x110000). -/
def highCont4 (b : Nat) : Nat := if b = 0xF4 then 0x8F else 0xBF

/-- State of the streaming UTF-8 decoder modelling CPython's
`bytes.decode`: the code-point bits collected so far, how many
continuation bytes are still needed (0 = no sequence pending), the allowed
range for the next continuation byte (CPython restricts the first
continuation byte after the leads 0xE0, 0xED, 0xF0 and 0xF4 to reject
overlong forms, encoded surrogates and values above 0x10FFFF), and the raw
bytes of the pending sequence, kept so the error handler can be applied to
each of them if the sequence turns out invalid. -/
structure DecState where
  acc : Nat
  need : Nat
  lo : Nat
  hi : Nat
  raw : List Nat
deriving DecidableEq

/-- No sequence pending. -/
def freshState : DecState := ⟨0, 0, 0, 0, []⟩

/-- Start decoding at byte `b` with no sequence pending: ASCII is emitted
as is, a lead byte opens a pending sequence, and a byte that can start
nothing (a bare continuation byte, the overlong leads 0xC0/0xC1, or
0xF5..0xFF) goes to the error handler. -/
def classify (err : Nat → List Nat) (b : Nat) : DecState × List Nat :=
  if b < 0x80 then (freshState, [b])
  else if b < 0xC2 then (freshState, err b)
  else if b < 0xE0 then (⟨b - 0xC0, 1, 0x80, 0xBF, [b]⟩, [])
  else if b < 0xF0 then (⟨b - 0xE0, 2, lowCont3 b, highCont3 b, [b]⟩, [])
  else if b < 0xF5 then (⟨b - 0xF0, 3, lowCont4 b, highCont4 b, [b]⟩, [])
  else (freshState, err b)

/-- Feed one byte to the decoder.  With a sequence pending, a continuation
byte in the allowed range extends it (and completes it when it was the
last one); anything else invalidates the pending sequence — its bytes go
to the error handler one by one (CPython's maximal-subpart recovery) and
the offending byte starts afresh. -/
def stepDec (err : Nat → List Nat) (s : DecState) (b : Nat) : DecState × List Nat :=
  if s.need = 0 then classify err b
  else if s.lo ≤ b ∧ b ≤ s.hi then
    if s.need = 1 then (freshState, [s.acc * 64 + (b - 0x80)])
    else (⟨s.acc * 64 + (b - 0x80), s.need - 1, 0x80, 0xBF, s.raw ++ [b]⟩, [])
  else ((classify err b).1, (s.raw.map err).flatten ++ (classify err b).2)

/-- Run the decoder over the whole input; a sequence still pending at the
end of input is invalid (truncated) and goes to the error handler. -/
def runDec (err : Nat → List Nat) (s : DecState) : List Nat → List Nat
  | [] => (s.raw.map err).flatten
  | b :: rest => (stepDec err s b).2 ++ runDec err (stepDec err s b).1 rest

/-- Model of CPython's UTF-8 `bytes.decode` with a per-byte error handler
`err` (roky.py uses `backslashreplace` in `consoleFormat` and `replace` in
`consoleThread`).  Valid sequences decode to their code points; the bytes
of an invalid subpart are each handed to `err`, which for
`backslashreplace` (escaping every byte of a bad run individually) gives
CPython's exact output. -/
def pyDecodeWith (err : Nat → List Nat) (l : List Nat) : List Nat :=
  runDec err freshState l

/-- `bytesIn.decode(errors='backslashreplace')` of roky.py line 330. -/
def pyDecode : List Nat → List Nat := pyDecodeWith escByte

/-- `bytesIn.decode(errors='replace')` of roky.py line 517. -/
def decodeReplace : List Nat → List Nat := pyDecodeWith (fun _ => [0xFFFD])

/-- `consoleFormat` (roky.py lines 320–374): decode the bytes with
`backslashreplace`, then format every code point for the console.  The
`except` arm of the source is unreachable (the decode is total), so it is
not modelled. -/
def consoleFormat (bytesIn : List Nat) : List Nat :=
  ((pyDecode bytesIn).map formatCodePoint).flatten

/-- UTF-8 encoding of one code point (`str.encode()`), defined for scalar
values; used to quantify over valid UTF-8 byte streams. -/
def encodeChar (cp : Nat) : List Nat :=
  if cp < 0x80 then [cp]
  else if cp < 0x800 then [0xC0 + cp / 64, 0x80 + cp % 64]
  else if cp < 0x10000 then [0xE0 + cp / 4096, 0x80 + cp / 64 % 64, 0x80 + cp % 64]
  else [0xF0 + cp / 262144, 0x80 + cp / 4096 % 64, 0x80 + cp / 64 % 64, 0x80 + cp % 64]

/-- UTF-8 encoding of a string of code points. -/
def encodeUtf8 (cps : List Nat) : List Nat := (cps.map encodeChar).flatten

/-- A Unicode scalar value: in range and not a surrogate.  A byte sequence
is valid UTF-8 exactly when it is `encodeUtf8` of a list of these. -/
abbrev ValidScalar (cp : Nat) : Prop := cp < 0x110000 ∧ (cp < 0xD800 ∨ 0xDFFF < cp)

/-- `(bytesIn[i-1] >> 6) == 0b10` (roky.py line 411): is this a UTF-8
continuation byte? -/
def isContByte (b : Nat) : Bool := b >>> 6 == 2

/-- Length of the run of continuation bytes at the end of the input: the
count the backward `while` loop of roky.py lines 410–413 computes as
`len(bytesIn) - i`. -/
def nContOf (bs : List Nat) : Nat := (bs.reverse.takeWhile isContByte).length

/-- Expected number of continuation bytes after a lead byte, from its
leading-bit pattern (roky.py lines 420–428). -/
def expectedCont (b : Nat) : Nat :=
  if b >>> 5 = 6 then 1 else if b >>> 4 = 14 then 2 else if b >>> 3 = 30 then 3 else 0

/-- The trailing-partial-sequence split of roky.py lines 409–437:
`(emitted bytes, held-back trail)`.  `i` is the index one past the last
non-continuation byte; if the byte at `i-1` is a lead expecting more
continuation bytes than follow, it and the run after it are held back; if
the whole input is continuation bytes (`i = 0`), all of it is held back. -/
def stripTrail (bytesIn : List Nat) : List Nat × List Nat :=
  let nCont := nContOf bytesIn
  let i := bytesIn.length - nCont
  if 0 < i then
    if nCont < expectedCont (bytesIn.getD (i - 1) 0) then
      (bytesIn.take (i - 1), bytesIn.drop (i - 1))
    else (bytesIn, [])
  else ([], bytesIn)

/-- What one loop iteration of `rokuReaderThread` (lines 390–442) produces
from the held trail and the bytes `recv` returned: the new trail, the bytes
written to the log, and the code points written to the console. -/
structure ReaderStep where
  trail : List Nat
  logged : List Nat
  rendered : List Nat
deriving DecidableEq

/-- One iteration of the reader loop: prepend the held trail, and if the
result is non-empty, log it, strip the new trailing partial sequence and
render the rest with `consoleFormat`.  (`log.write` happens before the
strip, so the logged bytes are `trail ++ chunk` whole.) -/
def readerStep (trail chunk : List Nat) : ReaderStep :=
  let bytesIn := trail ++ chunk
  if bytesIn.isEmpty then ⟨[], [], []⟩
  else ⟨(stripTrail bytesIn).2, bytesIn, consoleFormat (stripTrail bytesIn).1⟩

/-- The reader loop over a finite stream of received chunks, accumulating
the log and the rendered console output. -/
def readerRun : List Nat → List (List Nat) → ReaderStep
  | t, [] => ⟨t, [], []⟩
  | t, c :: cs =>
    let s := readerStep t c
    let r := readerRun s.trail cs
    ⟨r.trail, s.logged ++ r.logged, s.rendered ++ r.rendered⟩

/-- Control-flow outcome of one reader-loop iteration: the loop is left
(`exit`), or continues with a new trail, logged bytes and rendered output. -/
inductive ReaderIter where
  | exit : ReaderIter
  | cont : List Nat → List Nat → List Nat → ReaderIter
deriving DecidableEq

/-- One iteration of the `while True` loop of `rokuReaderThread` with its
control flow: `none` models `rokuSocket.recv` raising an exception (the
`except` arm, which breaks out of the loop); `some chunk` a successful
receive, after which the body runs and the loop continues — the source has
no `break` on an empty receive. -/
def readerIteration (trail : List Nat) : Option (List Nat) → ReaderIter
  | none => .exit
  | some chunk =>
    let s := readerStep trail chunk
    .cont s.trail s.logged s.rendered

/-- The line framing of `consoleThread` (lines 530–543): `reLines.findall`
returns every `[^\r]*\r` match in order (each is a CR-free run plus its
terminating CR, which `rstrip('\r')` then removes), and `reTrail.search`
keeps the CR-free suffix after the last CR.  `frame` returns the stripped
lines and that retained suffix. -/
def frame : List Nat → List (List Nat) × List Nat
  | [] => ([], [])
  | c :: rest =>
    let (ls, t) := frame rest
    if c = 13 then ([] :: ls, t)
    else
      match ls with
      | [] => ([], c :: t)
      | l :: ls2 => ((c :: l) :: ls2, t)

/-- Python's substring test `pat in s`. -/
def isSubstr (pat : List Nat) : List Nat → Bool
  | [] => pat.isEmpty
  | b :: t => pat.isPrefixOf (b :: t) || isSubstr pat t

/-- The characters of `'quit\r'`. -/
def quitCmd : List Nat := [113, 117, 105, 116, 13]

/-- The characters of `'break\r'`. -/
def breakCmd : List Nat := [98, 114, 101, 97, 107, 13]

/-- What one loop iteration of `consoleThread` (lines 504–543) produces:
whether the loop terminates, the retained buffer, the lines echoed to the
main console, the messages put on the Roku writer queue, and the bytes
written to the log. -/
structure ConsoleOut where
  quit : Bool
  newBuf : List Nat
  echoed : List (List Nat)
  msgs : List (List Nat)
  logged : List Nat
deriving DecidableEq

/-- One iteration of the console thread's loop on a received chunk: an
empty receive breaks the loop; otherwise the chunk plus a LF is logged, the
chunk is decoded with `errors='replace'` and appended to the buffer, then
in order: a buffer containing `'quit\r'` breaks the loop; a buffer
containing `'break\r'` is cleared and a single 0x03 byte is queued; else
every CR-terminated line is echoed (CR stripped) and queued as the line's
UTF-8 bytes (CR still included) plus a LF, and the CR-free remainder is
retained. -/
def consoleStep (charBuf : List Nat) (chunk : List Nat) : ConsoleOut :=
  if chunk.isEmpty then ⟨true, charBuf, [], [], []⟩
  else
    let buf := charBuf ++ decodeReplace chunk
    if isSubstr quitCmd buf then ⟨true, buf, [], [], chunk ++ [10]⟩
    else if isSubstr breakCmd buf then ⟨false, [], [], [[3]], chunk ++ [10]⟩
    else
      let p := frame buf
      ⟨false, p.2, p.1, p.1.map (fun l => encodeUtf8 (l ++ [13]) ++ [10]), chunk ++ [10]⟩

/-- Modelled from the spec: the per-codepoint rendering policy of section
4.2 of the spec, written with the spec's own printable set (space, tab, CR,
LF, printable ASCII 0x20–0x7E), the spec's range boundaries, and the spec's
reference surrogate formula `high = 0xD800 + (v >> 10)`,
`low = 0xDC00 + (v & 0x3FF)` with `v = cp - 0x10000`.  Compared against
`formatCodePoint`, which is translated from the code. -/
def renderSpec (cp : Nat) : List Nat :=
  if cp < 0x80 then
    if cp = 9 ∨ cp = 10 ∨ cp = 13 ∨ (0x20 ≤ cp ∧ cp ≤ 0x7E) then [cp]
    else [92, 120] ++ hex2 cp
  else if cp ≤ 0x513 then [cp]
  else if cp < 0x10000 then [92, 117] ++ hex4 cp
  else if cp ≤ 0x10FFFF then
    ([92, 117] ++ hex4 (0xD800 + ((cp - 0x10000) >>> 10))) ++
      ([92, 117] ++ hex4 (0xDC00 + ((cp - 0x10000) &&& 0x3FF)))
  else [0xFFFD]

example : frame [97, 98, 99, 13, 100, 101, 102, 13, 103, 104] =
    ([[97, 98, 99], [100, 101, 102]], [103, 104]) := by decide

example : pyDecode [0xC3, 0xA9] = [0xE9] := by decide

example : pyDecode [0xC3] = escByte 0xC3 := by decide

example : stripTrail [72, 0xC3] = ([72], [0xC3]) := by decide

example : consoleFormat [0xF0, 0x90, 0x8D, 0x88] = [92, 117, 100, 56, 48, 48, 92, 117, 100, 102, 52, 56] := by decide

/-! ## Helper lemmas: takeWhile, nContOf and stripTrail -/

lemma takeWhile_append_all (p : Nat → Bool) (ys zs : List Nat) (h : ∀ y ∈ ys, p y = true) :
    (ys ++ zs).takeWhile p = ys ++ zs.takeWhile p := by
  induction ys with
  | nil => rfl
  | cons a ys ih =>
    have ha : p a = true := h a (by simp)
    simp [ha, ih fun y hy => h y (by simp [hy])]

lemma nContOf_append (xs : List Nat) (b : Nat) (ys : List Nat)
    (hb : isContByte b = false) (hys : ∀ y ∈ ys, isContByte y = true) :
    nContOf (xs ++ b :: ys) = ys.length := by
  unfold nContOf
  have h1 : (xs ++ b :: ys).reverse = ys.reverse ++ b :: xs.reverse := by simp
  rw [h1, takeWhile_append_all _ _ _ fun y hy => hys y (by simpa using hy)]
  simp [List.takeWhile_cons, hb]

lemma nContOf_all (bs : List Nat) (h : ∀ b ∈ bs, isContByte b = true) :
    nContOf bs = bs.length := by
  unfold nContOf
  have h2 : ∀ y ∈ bs.reverse, isContByte y = true := fun y hy => h y (by simpa using hy)
  have h3 := takeWhile_append_all isContByte bs.reverse [] h2
  simp only [List.append_nil, List.takeWhile_nil] at h3
  rw [h3]
  simp

lemma getD_append_len (xs : List Nat) (b : Nat) (ys : List Nat) :
    (xs ++ b :: ys).getD xs.length 0 = b := by
  induction xs with
  | nil => rfl
  | cons a xs ih => simpa using ih

lemma stripTrail_eq (xs : List Nat) (b : Nat) (ys : List Nat)
    (hb : isContByte b = false) (hys : ∀ y ∈ ys, isContByte y = true) :
    stripTrail (xs ++ b :: ys) =
      if ys.length < expectedCont b then (xs, b :: ys) else (xs ++ b :: ys, []) := by
  simp only [stripTrail]
  rw [nContOf_append xs b ys hb hys]
  have hlen : (xs ++ b :: ys).length = xs.length + 1 + ys.length := by
    simp [List.length_append]; omega
  have h1 : (xs ++ b :: ys).length - ys.length = xs.length + 1 := by omega
  rw [h1, if_pos (by omega : 0 < xs.length + 1)]
  have h2 : xs.length + 1 - 1 = xs.length := by omega
  rw [h2, getD_append_len]
  have h3 : (xs ++ b :: ys).take xs.length = xs := List.take_left' rfl
  have h4 : (xs ++ b :: ys).drop xs.length = b :: ys := List.drop_left' rfl
  rw [h3, h4]

lemma stripTrail_allCont (bs : List Nat) (h : ∀ b ∈ bs, isContByte b = true) :
    stripTrail bs = ([], bs) := by
  simp only [stripTrail]
  rw [nContOf_all bs h]
  simp

lemma expectedCont_le (b : Nat) : expectedCont b ≤ 3 := by
  unfold expectedCont
  split
  · omega
  · split
    · omega
    · split <;> omega

lemma exists_last_noncont (bs : List Nat) (h : ∃ b ∈ bs, isContByte b = false) :
    ∃ xs b ys, bs = xs ++ b :: ys ∧ isContByte b = false ∧ ∀ y ∈ ys, isContByte y = true := by
  induction bs using List.reverseRecOn with
  | nil => simp at h
  | append_singleton init last ih =>
    by_cases hl : isContByte last = true
    · have h' : ∃ b ∈ init, isContByte b = false := by
        rcases h with ⟨b, hb, hbf⟩
        rcases List.mem_append.mp hb with h1 | h2
        · exact ⟨b, h1, hbf⟩
        · have : b = last := by simpa using h2
          rw [this, hl] at hbf
          cases hbf
      rcases ih h' with ⟨xs, b, ys, heq, hbf, hys⟩
      refine ⟨xs, b, ys ++ [last], by simp [heq], hbf, fun y hy => ?_⟩
      rcases List.mem_append.mp hy with h1 | h2
      · exact hys y h1
      · have : y = last := by simpa using h2
        rw [this]; exact hl
    · have hl' : isContByte last = false := by
        revert hl; cases isContByte last <;> simp
      exact ⟨init, last, [], by simp, hl', by simp⟩

lemma readerStep_eq (trail chunk : List Nat) :
    readerStep trail chunk =
      ⟨(stripTrail (trail ++ chunk)).2, trail ++ chunk,
        consoleFormat (stripTrail (trail ++ chunk)).1⟩ := by
  simp only [readerStep]
  split
  · rename_i h
    have h0 : trail ++ chunk = [] := by simpa [List.isEmpty_iff] using h
    rw [h0]
    rfl
  · rfl

/-! ## Frame lemmas -/

lemma frame_cons (c : Nat) (rest : List Nat) :
    frame (c :: rest) =
      if c = 13 then ([] :: (frame rest).1, (frame rest).2)
      else
        match (frame rest).1 with
        | [] => ([], c :: (frame rest).2)
        | l :: ls2 => ((c :: l) :: ls2, (frame rest).2) := by
  rcases h : frame rest with ⟨ls, t⟩
  simp only [frame, h]

lemma frame_trail_no_cr (s : List Nat) : ((frame s).2.all fun b => b != 13) = true := by
  induction s with
  | nil => rfl
  | cons c rest ih =>
    rw [frame_cons]
    by_cases hc : c = 13
    · simpa [hc] using ih
    · simp only [if_neg hc]
      cases h : (frame rest).1 with
      | nil => simp [List.all_cons, hc, ih]
      | cons l ls2 => simpa using ih

/-! ## Console-thread helper lemmas -/

lemma consoleStep_eq (buf chunk : List Nat) (h : chunk ≠ []) :
    consoleStep buf chunk =
      if isSubstr quitCmd (buf ++ decodeReplace chunk) then
        ⟨true, buf ++ decodeReplace chunk, [], [], chunk ++ [10]⟩
      else if isSubstr breakCmd (buf ++ decodeReplace chunk) then
        ⟨false, [], [], [[3]], chunk ++ [10]⟩
      else
        ⟨false, (frame (buf ++ decodeReplace chunk)).2, (frame (buf ++ decodeReplace chunk)).1,
          (frame (buf ++ decodeReplace chunk)).1.map (fun l => encodeUtf8 (l ++ [13]) ++ [10]),
          chunk ++ [10]⟩ := by
  have he : chunk.isEmpty = false := by
    cases chunk with
    | nil => exact absurd rfl h
    | cons a t => rfl
  simp only [consoleStep, he, Bool.false_eq_true, if_false]

/-! ## Claim theorems for the console thread and the reader loop shape -/

/-- C4: the line-framing step on the buffer `"abc\rdef\rgh"` yields the
complete lines `["abc", "def"]` (terminators stripped) and retains `"gh"`;
feeding the retained buffer plus `"i\r"` yields `["ghi"]` with an empty
retained buffer; and for every buffer the retained remainder contains no
CR (13). -/
theorem c4_line_framing :
    frame [97, 98, 99, 13, 100, 101, 102, 13, 103, 104] =
        ([[97, 98, 99], [100, 101, 102]], [103, 104]) ∧
    frame ([103, 104] ++ [105, 13]) = ([[103, 104, 105]], []) ∧
    ∀ s : List Nat, ((frame s).2.all fun b => b != 13) = true :=
  ⟨by decide, by decide, frame_trail_no_cr⟩

/-- C5 counterexample: the console thread does not recognize `"QUIT\r"`
(uppercase): the step on that buffer does not terminate the session and
relays the line as an ordinary outbound message. -/
theorem c5_uppercase_not_recognized :
    (consoleStep [] [81, 85, 73, 84, 13]).quit = false ∧
    (consoleStep [] [81, 85, 73, 84, 13]).msgs = [[81, 85, 73, 84, 13, 10]] := by
  exact ⟨by decide, by decide⟩

/-- C5 (amended): the console thread recognizes the reserved commands in
their exact lowercase spelling, by substring containment against the whole
accumulated buffer, before any line extraction: a buffer containing
`"quit\r"` terminates the loop, and a buffer containing `"break\r"` (and
not `"quit\r"`, which is checked first) triggers the break. -/
theorem c5_lowercase_recognition (buf chunk : List Nat) (hne : chunk ≠ []) :
    (isSubstr quitCmd (buf ++ decodeReplace chunk) = true →
      (consoleStep buf chunk).quit = true ∧ (consoleStep buf chunk).echoed = []) ∧
    (isSubstr quitCmd (buf ++ decodeReplace chunk) = false →
      isSubstr breakCmd (buf ++ decodeReplace chunk) = true →
      (consoleStep buf chunk).msgs = [[3]] ∧ (consoleStep buf chunk).quit = false) := by
  rw [consoleStep_eq buf chunk hne]
  constructor
  · intro hq
    simp [hq]
  · intro hq hb
    simp [hq, hb]

/-- C5 witness: the lowercase command `"quit\r"` is recognized. -/
theorem c5_lowercase_recognition_witness :
    (consoleStep [] [113, 117, 105, 116, 13]).quit = true :=
  ((c5_lowercase_recognition [] [113, 117, 105, 116, 13] (by decide)).1 (by decide)).1

/-- C6 counterexample: a buffer containing both `"break\r"` and `"quit\r"`
(here `"break\rquit\r"` in one receive) contains `"break\r"`, yet no 0x03
control byte is enqueued — the quit check runs first. -/
theorem c6_break_not_enqueued_with_quit :
    (consoleStep [] [98, 114, 101, 97, 107, 13, 113, 117, 105, 116, 13]).quit = true ∧
    (consoleStep [] [98, 114, 101, 97, 107, 13, 113, 117, 105, 116, 13]).msgs = [] := by
  exact ⟨by decide, by decide⟩

/-- C6 (amended): whenever the buffer contains `"break\r"` and does not
contain `"quit\r"` (the quit check runs first), the break is never relayed
as a normal line, exactly one 0x03 control byte is enqueued and the buffer
is cleared; whenever the buffer contains `"quit\r"`, the loop terminates
without enqueueing any outbound message for that input. -/
theorem c6_reserved_command_effects (buf chunk : List Nat) (hne : chunk ≠ []) :
    (isSubstr breakCmd (buf ++ decodeReplace chunk) = true →
      isSubstr quitCmd (buf ++ decodeReplace chunk) = false →
      (consoleStep buf chunk).msgs = [[3]] ∧ (consoleStep buf chunk).newBuf = [] ∧
        (consoleStep buf chunk).echoed = [] ∧ (consoleStep buf chunk).quit = false) ∧
    (isSubstr quitCmd (buf ++ decodeReplace chunk) = true →
      (consoleStep buf chunk).quit = true ∧ (consoleStep buf chunk).msgs = []) := by
  rw [consoleStep_eq buf chunk hne]
  constructor
  · intro hb hq
    simp [hq, hb]
  · intro hq
    simp [hq]

/-- C6 witness: on the single command `"break\r"` exactly one 0x03 is
enqueued and the buffer is cleared. -/
theorem c6_reserved_command_effects_witness :
    (consoleStep [] [98, 114, 101, 97, 107, 13]).msgs = [[3]] ∧
      (consoleStep [] [98, 114, 101, 97, 107, 13]).newBuf = [] :=
  have h := (c6_reserved_command_effects [] [98, 114, 101, 97, 107, 13] (by decide)).1
    (by decide) (by decide)
  ⟨h.1, h.2.1⟩

/-- C10 counterexample: the buffer `"quit\rbreak\r"` contains `"break\r"`,
yet the break is not triggered (no 0x03 is enqueued): the quit check, which
also works by substring containment, runs first. -/
theorem c10_break_after_quit_ignored :
    (consoleStep [] [113, 117, 105, 116, 13, 98, 114, 101, 97, 107, 13]).quit = true ∧
    (consoleStep [] [113, 117, 105, 116, 13, 98, 114, 101, 97, 107, 13]).msgs = [] := by
  exact ⟨by decide, by decide⟩

/-- C10 (amended): reserved commands are detected by substring containment
over the whole accumulated buffer, not by whole-line comparison: the single
line `"say quit\r"` terminates the session instead of being relayed; and
any buffer containing `"break\r"` anywhere — provided it does not also
contain `"quit\r"`, which is checked first — triggers the break and clears
the entire buffer, so pending complete lines accumulated before it are
discarded and never enqueued. -/
theorem c10_substring_detection :
    ((consoleStep [] [115, 97, 121, 32, 113, 117, 105, 116, 13]).quit = true ∧
      (consoleStep [] [115, 97, 121, 32, 113, 117, 105, 116, 13]).msgs = []) ∧
    ∀ buf chunk : List Nat, chunk ≠ [] →
      isSubstr breakCmd (buf ++ decodeReplace chunk) = true →
      isSubstr quitCmd (buf ++ decodeReplace chunk) = false →
      (consoleStep buf chunk).msgs = [[3]] ∧ (consoleStep buf chunk).newBuf = [] ∧
        (consoleStep buf chunk).echoed = [] := by
  refine ⟨⟨by decide, by decide⟩, fun buf chunk hne hb hq => ?_⟩
  rw [consoleStep_eq buf chunk hne]
  simp [hq, hb]

/-- C8 counterexample: an input consisting entirely of continuation bytes
is held back whole, so after one call on four continuation bytes the trail
has length 4, above the claimed bound of 3. -/
theorem c8_trail_can_exceed_three :
    (readerStep [] [128, 128, 128, 128]).trail = [128, 128, 128, 128] ∧
    (decide ((readerStep [] [128, 128, 128, 128]).trail.length ≤ 3)) = false := by
  exact ⟨by decide, by decide⟩

/-- C8 (amended): after a reassembly step whose processed input (held trail
plus received chunk) contains at least one non-continuation byte, the
held-back trail is between 0 and 3 bytes long; an input consisting entirely
of continuation bytes is held back whole, so there the trail has the full
input length. -/
theorem c8_trail_bound (trail chunk : List Nat) :
    ((∃ b ∈ trail ++ chunk, isContByte b = false) →
      (readerStep trail chunk).trail.length ≤ 3) ∧
    ((∀ b ∈ trail ++ chunk, isContByte b = true) →
      (readerStep trail chunk).trail = trail ++ chunk) := by
  constructor
  · intro h
    rw [readerStep_eq]
    show (stripTrail (trail ++ chunk)).2.length ≤ 3
    rcases exists_last_noncont _ h with ⟨xs, b, ys, heq, hb, hys⟩
    rw [heq, stripTrail_eq xs b ys hb hys]
    split
    · rename_i hlt
      have h3 := expectedCont_le b
      simp only [List.length_cons]
      omega
    · simp
  · intro h
    rw [readerStep_eq]
    show (stripTrail (trail ++ chunk)).2 = trail ++ chunk
    rw [stripTrail_allCont _ h]

/-- C9 counterexample: an empty receive does not end the reader loop: the
iteration continues with unchanged (empty) state, and its outcome is not
the `exit` outcome. -/
theorem c9_empty_read_continues :
    readerIteration [] (some []) = ReaderIter.cont [] [] [] ∧
    (decide (readerIteration [] (some []) = ReaderIter.exit)) = false := by
  exact ⟨by decide, by decide⟩

/-- C9 (amended): the reader loop exits only when the receive (or the
console write) raises an exception; an empty receive does not end the loop
— with no held trail it leaves the state unchanged, produces no output,
and the loop runs again. -/
theorem c9_exit_only_on_error :
    (∀ t : List Nat, readerIteration t none = ReaderIter.exit) ∧
    (∀ t chunk : List Nat, readerIteration t (some chunk) ≠ ReaderIter.exit) ∧
    readerIteration [] (some []) = ReaderIter.cont [] [] [] := by
  refine ⟨fun t => rfl, fun t chunk => ?_, by decide⟩
  simp [readerIteration]

/-! ## Surrogate-pair arithmetic -/

lemma and_1023_eq_mod (x : Nat) : x &&& 1023 = x % 1024 := by
  have h : (1023 : Nat) = 2 ^ 10 - 1 := by norm_num
  rw [h, Nat.and_pow_two_sub_one_eq_mod]

lemma and_mask_shift (x : Nat) : (x &&& 0xFFC00) >>> 10 = (x >>> 10) &&& 1023 := by
  apply Nat.eq_of_testBit_eq
  intro i
  simp only [Nat.testBit_shiftRight, Nat.testBit_and]
  congr 1
  by_cases h : i < 10
  · interval_cases i <;> decide
  · have h1 : Nat.testBit 1047552 (10 + i) = false := by
      apply Nat.testBit_lt_two_pow
      calc (1047552 : Nat) < 2 ^ 20 := by norm_num
        _ ≤ 2 ^ (10 + i) := Nat.pow_le_pow_right (by norm_num) (by omega)
    have h2 : Nat.testBit 1023 i = false := by
      apply Nat.testBit_lt_two_pow
      calc (1023 : Nat) < 2 ^ 10 := by norm_num
        _ ≤ 2 ^ i := Nat.pow_le_pow_right (by norm_num) (by omega)
    rw [h1, h2]

lemma shiftRight10_eq_div (x : Nat) : x >>> 10 = x / 1024 := by
  rw [Nat.shiftRight_eq_div_pow]

lemma surrHi_spec (cp : Nat) (h1 : 0x10000 ≤ cp) (h2 : cp ≤ 0x10FFFF) :
    surrHi cp = 0xD800 + ((cp - 0x10000) >>> 10) := by
  unfold surrHi
  rw [and_mask_shift, and_1023_eq_mod, and_1023_eq_mod, shiftRight10_eq_div]
  omega

lemma surrLo_spec (cp : Nat) : surrLo cp = 0xDC00 + ((cp - 0x10000) &&& 0x3FF) := by
  unfold surrLo
  omega

/-- C3: for every code point in [0x10000, 0x10FFFF] the surrogate pair
computed by `consoleFormat`'s masked formula equals the spec's reference
formula `high = 0xD800 + (v >> 10)`, `low = 0xDC00 + (v & 0x3FF)` with
`v = cp - 0x10000`, and high lands in [0xD800, 0xDBFF], low in
[0xDC00, 0xDFFF]. -/
theorem c3_surrogate_formula (cp : Nat) (h1 : 0x10000 ≤ cp) (h2 : cp ≤ 0x10FFFF) :
    surrHi cp = 0xD800 + ((cp - 0x10000) >>> 10) ∧
    surrLo cp = 0xDC00 + ((cp - 0x10000) &&& 0x3FF) ∧
    0xD800 ≤ surrHi cp ∧ surrHi cp ≤ 0xDBFF ∧
    0xDC00 ≤ surrLo cp ∧ surrLo cp ≤ 0xDFFF := by
  have hhi := surrHi_spec cp h1 h2
  have hlo := surrLo_spec cp
  have hdiv : (cp - 0x10000) >>> 10 ≤ 0x3FF := by
    rw [shiftRight10_eq_div]
    omega
  have hmod : (cp - 0x10000) &&& 0x3FF ≤ 0x3FF := by
    have := and_1023_eq_mod (cp - 0x10000)
    omega
  refine ⟨hhi, hlo, ?_, ?_, ?_, ?_⟩ <;> omega

/-- C3 witness: at U+10437 the pair is (0xD801, 0xDC37). -/
theorem c3_surrogate_formula_witness :
    surrHi 0x10437 = 0xD800 + ((0x10437 - 0x10000) >>> 10) ∧
    surrLo 0x10437 = 0xDC00 + ((0x10437 - 0x10000) &&& 0x3FF) ∧
    0xD800 ≤ surrHi 0x10437 ∧ surrHi 0x10437 ≤ 0xDBFF ∧
    0xDC00 ≤ surrLo 0x10437 ∧ surrLo 0x10437 ≤ 0xDFFF :=
  c3_surrogate_formula 0x10437 (by decide) (by decide)


/-! ## Decoder stepping lemmas -/

lemma runDec_nil (err : Nat → List Nat) (s : DecState) :
    runDec err s [] = (s.raw.map err).flatten := rfl

lemma runDec_cons (err : Nat → List Nat) (s : DecState) (b : Nat) (rest : List Nat) :
    runDec err s (b :: rest) = (stepDec err s b).2 ++ runDec err (stepDec err s b).1 rest := rfl

lemma stepDec_fresh (err : Nat → List Nat) (b : Nat) :
    stepDec err freshState b = classify err b := by
  simp [stepDec, freshState]

lemma classify_ascii (err : Nat → List Nat) (b : Nat) (h : b < 0x80) :
    classify err b = (freshState, [b]) := by
  simp only [classify]
  rw [if_pos h]

lemma classify_lead2 (err : Nat → List Nat) (b : Nat) (h1 : 0xC2 ≤ b) (h2 : b < 0xE0) :
    classify err b = (⟨b - 0xC0, 1, 0x80, 0xBF, [b]⟩, []) := by
  simp only [classify]
  rw [if_neg (by omega), if_neg (by omega), if_pos h2]

lemma classify_lead3 (err : Nat → List Nat) (b : Nat) (h1 : 0xE0 ≤ b) (h2 : b < 0xF0) :
    classify err b = (⟨b - 0xE0, 2, lowCont3 b, highCont3 b, [b]⟩, []) := by
  simp only [classify]
  rw [if_neg (by omega), if_neg (by omega), if_neg (by omega), if_pos h2]

lemma classify_lead4 (err : Nat → List Nat) (b : Nat) (h1 : 0xF0 ≤ b) (h2 : b < 0xF5) :
    classify err b = (⟨b - 0xF0, 3, lowCont4 b, highCont4 b, [b]⟩, []) := by
  simp only [classify]
  rw [if_neg (by omega), if_neg (by omega), if_neg (by omega), if_neg (by omega), if_pos h2]

lemma stepDec_cont_last (err : Nat → List Nat) (s : DecState) (b : Nat)
    (h0 : s.need = 1) (h1 : s.lo ≤ b) (h2 : b ≤ s.hi) :
    stepDec err s b = (freshState, [s.acc * 64 + (b - 0x80)]) := by
  simp only [stepDec]
  rw [if_neg (by omega), if_pos ⟨h1, h2⟩, if_pos h0]

lemma stepDec_cont_more (err : Nat → List Nat) (s : DecState) (b : Nat)
    (h0 : 2 ≤ s.need) (h1 : s.lo ≤ b) (h2 : b ≤ s.hi) :
    stepDec err s b = (⟨s.acc * 64 + (b - 0x80), s.need - 1, 0x80, 0xBF, s.raw ++ [b]⟩, []) := by
  simp only [stepDec]
  rw [if_neg (by omega), if_pos ⟨h1, h2⟩, if_neg (by omega)]

/-! ## Encoder structure and decode-of-encode -/

lemma encodeUtf8_nil : encodeUtf8 [] = [] := rfl

lemma encodeUtf8_cons (c : Nat) (cs : List Nat) :
    encodeUtf8 (c :: cs) = encodeChar c ++ encodeUtf8 cs := by
  simp [encodeUtf8]

lemma encodeUtf8_append (l1 l2 : List Nat) :
    encodeUtf8 (l1 ++ l2) = encodeUtf8 l1 ++ encodeUtf8 l2 := by
  simp [encodeUtf8]

lemma isContByte_false_iff (b : Nat) : isContByte b = false ↔ b / 64 ≠ 2 := by
  unfold isContByte
  rw [Nat.shiftRight_eq_div_pow]
  simp

lemma isContByte_true_iff (b : Nat) : isContByte b = true ↔ b / 64 = 2 := by
  unfold isContByte
  rw [Nat.shiftRight_eq_div_pow]
  simp

lemma expectedCont_div (b : Nat) :
    expectedCont b =
      if b / 32 = 6 then 1 else if b / 16 = 14 then 2 else if b / 8 = 30 then 3 else 0 := by
  unfold expectedCont
  rw [Nat.shiftRight_eq_div_pow, Nat.shiftRight_eq_div_pow, Nat.shiftRight_eq_div_pow]

/-- Structure of the UTF-8 encoding of a valid scalar: a non-continuation
lead byte followed by exactly as many continuation bytes as `expectedCont`
reads off the lead. -/
lemma encodeChar_struct (cp : Nat) (h : ValidScalar cp) :
    ∃ lead conts, encodeChar cp = lead :: conts ∧ isContByte lead = false ∧
      (∀ y ∈ conts, isContByte y = true) ∧ expectedCont lead = conts.length := by
  obtain ⟨hlt, hsur⟩ := h
  unfold encodeChar
  by_cases h1 : cp < 0x80
  · refine ⟨cp, [], by rw [if_pos h1], ?_, by simp, ?_⟩
    · rw [isContByte_false_iff]; omega
    · rw [expectedCont_div, if_neg (by omega), if_neg (by omega), if_neg (by omega)]
      rfl
  · by_cases h2 : cp < 0x800
    · refine ⟨0xC0 + cp / 64, [0x80 + cp % 64], by rw [if_neg h1, if_pos h2], ?_, ?_, ?_⟩
      · rw [isContByte_false_iff]; omega
      · intro y hy
        simp only [List.mem_singleton] at hy
        rw [hy, isContByte_true_iff]; omega
      · rw [expectedCont_div, if_pos (by omega)]
        rfl
    · by_cases h3 : cp < 0x10000
      · refine ⟨0xE0 + cp / 4096, [0x80 + cp / 64 % 64, 0x80 + cp % 64],
          by rw [if_neg h1, if_neg h2, if_pos h3], ?_, ?_, ?_⟩
        · rw [isContByte_false_iff]; omega
        · intro y hy
          simp only [List.mem_cons, List.not_mem_nil, or_false] at hy
          rcases hy with hy | hy <;> · rw [hy, isContByte_true_iff]; omega
        · rw [expectedCont_div, if_neg (by omega), if_pos (by omega)]
          rfl
      · refine ⟨0xF0 + cp / 262144, [0x80 + cp / 4096 % 64, 0x80 + cp / 64 % 64, 0x80 + cp % 64],
          by rw [if_neg h1, if_neg h2, if_neg h3], ?_, ?_, ?_⟩
        · rw [isContByte_false_iff]; omega
        · intro y hy
          simp only [List.mem_cons, List.not_mem_nil, or_false] at hy
          rcases hy with hy | hy | hy <;> · rw [hy, isContByte_true_iff]; omega
        · rw [expectedCont_div, if_neg (by omega), if_neg (by omega), if_pos (by omega)]
          rfl

/-- Decoding the encoding of one valid scalar consumes exactly its bytes
and yields the scalar back, for any error handler. -/
lemma pyDecodeWith_encodeChar (err : Nat → List Nat) (cp : Nat) (h : ValidScalar cp)
    (rest : List Nat) :
    runDec err freshState (encodeChar cp ++ rest) = cp :: runDec err freshState rest := by
  obtain ⟨hlt, hsur⟩ := h
  unfold encodeChar
  by_cases h1 : cp < 0x80
  · rw [if_pos h1]
    simp only [List.cons_append, List.nil_append]
    rw [runDec_cons, stepDec_fresh, classify_ascii err cp h1]
    rfl
  · by_cases h2 : cp < 0x800
    · rw [if_neg h1, if_pos h2]
      simp only [List.cons_append, List.nil_append]
      have hacc : 0xC0 + cp / 64 - 0xC0 = cp / 64 := by omega
      rw [runDec_cons, stepDec_fresh, classify_lead2 err _ (by omega) (by omega), hacc]
      rw [runDec_cons]
      rw [stepDec_cont_last err _ _ rfl
        (by show (0x80 : Nat) ≤ 0x80 + cp % 64; omega)
        (by show 0x80 + cp % 64 ≤ (0xBF : Nat); omega)]
      have hv : cp / 64 * 64 + (0x80 + cp % 64 - 0x80) = cp := by omega
      dsimp only
      rw [hv]
      rfl
    · by_cases h3 : cp < 0x10000
      · rw [if_neg h1, if_neg h2, if_pos h3]
        simp only [List.cons_append, List.nil_append]
        have hacc : 0xE0 + cp / 4096 - 0xE0 = cp / 4096 := by omega
        rw [runDec_cons, stepDec_fresh, classify_lead3 err _ (by omega) (by omega), hacc]
        rw [runDec_cons]
        have hlo : lowCont3 (0xE0 + cp / 4096) ≤ 0x80 + cp / 64 % 64 := by
          unfold lowCont3
          split
          · rename_i he
            have h0 : cp / 4096 = 0 := by omega
            omega
          · omega
        have hhi : 0x80 + cp / 64 % 64 ≤ highCont3 (0xE0 + cp / 4096) := by
          unfold highCont3
          split
          · rename_i he
            have h0 : cp / 4096 = 13 := by omega
            omega
          · omega
        rw [stepDec_cont_more err _ _ (by show (2 : Nat) ≤ 2; omega) hlo hhi]
        dsimp only
        rw [runDec_cons]
        rw [stepDec_cont_last err _ _ rfl
          (by show (0x80 : Nat) ≤ 0x80 + cp % 64; omega)
          (by show 0x80 + cp % 64 ≤ (0xBF : Nat); omega)]
        have hv : (cp / 4096 * 64 + (0x80 + cp / 64 % 64 - 0x80)) * 64 + (0x80 + cp % 64 - 0x80)
            = cp := by omega
        dsimp only
        rw [hv]
        rfl
      · rw [if_neg h1, if_neg h2, if_neg h3]
        simp only [List.cons_append, List.nil_append]
        have hacc : 0xF0 + cp / 262144 - 0xF0 = cp / 262144 := by omega
        rw [runDec_cons, stepDec_fresh, classify_lead4 err _ (by omega) (by omega), hacc]
        rw [runDec_cons]
        have hlo : lowCont4 (0xF0 + cp / 262144) ≤ 0x80 + cp / 4096 % 64 := by
          unfold lowCont4
          split
          · rename_i he
            have h0 : cp / 262144 = 0 := by omega
            omega
          · omega
        have hhi : 0x80 + cp / 4096 % 64 ≤ highCont4 (0xF0 + cp / 262144) := by
          unfold highCont4
          split
          · rename_i he
            have h0 : cp / 262144 = 4 := by omega
            omega
          · omega
        rw [stepDec_cont_more err _ _ (by show (2 : Nat) ≤ 3; omega) hlo hhi]
        dsimp only
        rw [runDec_cons]
        rw [stepDec_cont_more err _ _ (by show (2 : Nat) ≤ 3 - 1; omega)
          (by show (0x80 : Nat) ≤ 0x80 + cp / 64 % 64; omega)
          (by show 0x80 + cp / 64 % 64 ≤ (0xBF : Nat); omega)]
        dsimp only
        rw [runDec_cons]
        rw [stepDec_cont_last err _ _ rfl
          (by show (0x80 : Nat) ≤ 0x80 + cp % 64; omega)
          (by show 0x80 + cp % 64 ≤ (0xBF : Nat); omega)]
        have hv : ((cp / 262144 * 64 + (0x80 + cp / 4096 % 64 - 0x80)) * 64 +
            (0x80 + cp / 64 % 64 - 0x80)) * 64 + (0x80 + cp % 64 - 0x80) = cp := by omega
        dsimp only
        rw [hv]
        rfl

/-- Decoding the encoding of a valid string gives the string back. -/
lemma pyDecodeWith_encodeUtf8 (err : Nat → List Nat) (cps : List Nat)
    (h : ∀ c ∈ cps, ValidScalar c) :
    pyDecodeWith err (encodeUtf8 cps) = cps := by
  unfold pyDecodeWith
  induction cps with
  | nil => rfl
  | cons c cs ih =>
    rw [encodeUtf8_cons, pyDecodeWith_encodeChar err c (h c (by simp)) (encodeUtf8 cs),
      ih fun x hx => h x (by simp [hx])]

/-- `consoleFormat` on valid UTF-8 is the per-scalar formatting, flattened. -/
lemma consoleFormat_encode (cps : List Nat) (h : ∀ c ∈ cps, ValidScalar c) :
    consoleFormat (encodeUtf8 cps) = (cps.map formatCodePoint).flatten := by
  unfold consoleFormat pyDecode
  rw [pyDecodeWith_encodeUtf8 escByte cps h]

/-! ## The trailing-split step on valid UTF-8 -/

/-- A complete valid encoding is never stripped: the trail stays empty. -/
lemma stripTrail_encode (cps : List Nat) (h : ∀ c ∈ cps, ValidScalar c) :
    stripTrail (encodeUtf8 cps) = (encodeUtf8 cps, []) := by
  rcases List.eq_nil_or_concat cps with rfl | ⟨cs, c, rfl⟩
  · rfl
  · rw [List.concat_eq_append, encodeUtf8_append]
    have hc : ValidScalar c := h c (by simp)
    rcases encodeChar_struct c hc with ⟨lead, conts, he, hlead, hconts, hexp⟩
    have he1 : encodeUtf8 [c] = lead :: conts := by
      rw [encodeUtf8_cons, he, encodeUtf8_nil, List.append_nil]
    rw [he1, stripTrail_eq _ _ _ hlead hconts, if_neg (by omega)]

/-- A non-empty proper prefix of one encoded character, appended to a
complete valid encoding, is stripped off whole as the trail. -/
lemma stripTrail_encode_partial (cps : List Nat) (c : Nat) (hc : ValidScalar c)
    (p q : List Nat) (hpq : encodeChar c = p ++ q) (hp : p ≠ []) (hq : q ≠ []) :
    stripTrail (encodeUtf8 cps ++ p) = (encodeUtf8 cps, p) := by
  rcases encodeChar_struct c hc with ⟨lead, conts, he, hlead, hconts, hexp⟩
  rcases p with _ | ⟨p0, p1⟩
  · exact absurd rfl hp
  · have hcons : lead :: conts = p0 :: (p1 ++ q) := by rw [← he, hpq]; rfl
    have hl : p0 = lead := by injection hcons with h1 h2; omega
    have hrest : p1 ++ q = conts := by injection hcons with h1 h2; rw [h2]
    have hmem : ∀ y ∈ p1, isContByte y = true := fun y hy =>
      hconts y (by rw [← hrest]; exact List.mem_append_left q hy)
    have hlen : p1.length < expectedCont lead := by
      have : conts.length = p1.length + q.length := by rw [← hrest]; simp
      have hq1 : 1 ≤ q.length := by
        rcases q with _ | ⟨q0, q1⟩
        · exact absurd rfl hq
        · simp
      omega
    rw [hl, stripTrail_eq _ _ _ hlead hmem, if_pos hlen]

/-- Any byte-offset split of an encoded string falls on a character
boundary, or inside one character whose encoding it cuts into two
non-empty parts. -/
lemma encode_split (cps : List Nat) (n : Nat) :
    (∃ cps1 cps2, cps = cps1 ++ cps2 ∧
      (encodeUtf8 cps).take n = encodeUtf8 cps1 ∧ (encodeUtf8 cps).drop n = encodeUtf8 cps2) ∨
    (∃ cps1 c cps2 p q, cps = cps1 ++ c :: cps2 ∧ encodeChar c = p ++ q ∧ p ≠ [] ∧ q ≠ [] ∧
      (encodeUtf8 cps).take n = encodeUtf8 cps1 ++ p ∧
      (encodeUtf8 cps).drop n = q ++ encodeUtf8 cps2) := by
  induction cps generalizing n with
  | nil =>
    left
    exact ⟨[], [], rfl, by simp [encodeUtf8], by simp [encodeUtf8]⟩
  | cons c cs ih =>
    by_cases hn0 : n = 0
    · left
      exact ⟨[], c :: cs, rfl, by simp [hn0, encodeUtf8], by simp [hn0]⟩
    · have hne : encodeChar c ≠ [] := by
        unfold encodeChar
        split
        · simp
        · split
          · simp
          · split <;> simp
      by_cases hlt : n < (encodeChar c).length
      · right
        refine ⟨[], c, cs, (encodeChar c).take n, (encodeChar c).drop n, rfl,
          (List.take_append_drop n (encodeChar c)).symm, ?_, ?_, ?_, ?_⟩
        · intro hnil
          rcases List.take_eq_nil_iff.mp hnil with h | h
          · exact hn0 h
          · exact hne h
        · intro hnil
          have := List.drop_eq_nil_iff.mp hnil
          omega
        · rw [encodeUtf8_cons, List.take_append_eq_append_take,
            show n - (encodeChar c).length = 0 by omega]
          simp [encodeUtf8]
        · rw [encodeUtf8_cons, List.drop_append_eq_append_drop,
            show n - (encodeChar c).length = 0 by omega]
          simp
      · have hge : (encodeChar c).length ≤ n := by omega
        rcases ih (n - (encodeChar c).length) with
          ⟨cps1, cps2, heq, ht, hd⟩ | ⟨cps1, c', cps2, p, q, heq, hpq, hp, hq, ht, hd⟩
        · left
          refine ⟨c :: cps1, cps2, by rw [heq]; rfl, ?_, ?_⟩
          · rw [encodeUtf8_cons, List.take_append_eq_append_take,
              List.take_of_length_le hge, encodeUtf8_cons, ht]
          · rw [encodeUtf8_cons, List.drop_append_eq_append_drop,
              List.drop_eq_nil_of_le hge, List.nil_append, hd]
        · right
          refine ⟨c :: cps1, c', cps2, p, q, by rw [heq]; rfl, hpq, hp, hq, ?_, ?_⟩
          · rw [encodeUtf8_cons, List.take_append_eq_append_take,
              List.take_of_length_le hge, encodeUtf8_cons, ht, List.append_assoc]
          · rw [encodeUtf8_cons, List.drop_append_eq_append_drop,
              List.drop_eq_nil_of_le hge, List.nil_append, hd]

/-! ## Main claim theorems: split safety, rendering policy, log exactness -/

/-- C1: for any valid UTF-8 byte sequence split at an arbitrary byte
offset into two chunks fed sequentially through the reader's reassembly
step (prepend held trail, strip new trailing partial sequence) and
rendered with `consoleFormat`, the concatenation of the rendered outputs
equals `consoleFormat` of the whole sequence (so no split point produces a
replacement or escape that would not appear when the sequence is fed
whole), and nothing remains held back afterwards. -/
theorem c1_split_reassembly (cps : List Nat) (h : ∀ c ∈ cps, ValidScalar c) (n : Nat) :
    (readerStep (readerStep [] ((encodeUtf8 cps).take n)).trail
        ((encodeUtf8 cps).drop n)).trail = [] ∧
    (readerStep [] ((encodeUtf8 cps).take n)).rendered ++
      (readerStep (readerStep [] ((encodeUtf8 cps).take n)).trail
        ((encodeUtf8 cps).drop n)).rendered = consoleFormat (encodeUtf8 cps) := by
  rcases encode_split cps n with ⟨cps1, cps2, heq, ht, hd⟩ |
    ⟨cps1, c, cps2, p, q, heq, hpq, hp, hq, ht, hd⟩
  · have h1 : ∀ x ∈ cps1, ValidScalar x := fun x hx =>
      h x (by rw [heq]; exact List.mem_append_left _ hx)
    have h2 : ∀ x ∈ cps2, ValidScalar x := fun x hx =>
      h x (by rw [heq]; exact List.mem_append_right _ hx)
    have e1 : readerStep [] (encodeUtf8 cps1) =
        ⟨[], encodeUtf8 cps1, consoleFormat (encodeUtf8 cps1)⟩ := by
      rw [readerStep_eq, List.nil_append, stripTrail_encode cps1 h1]
    have e2 : readerStep [] (encodeUtf8 cps2) =
        ⟨[], encodeUtf8 cps2, consoleFormat (encodeUtf8 cps2)⟩ := by
      rw [readerStep_eq, List.nil_append, stripTrail_encode cps2 h2]
    rw [ht, hd, e1]
    dsimp only
    rw [e2]
    refine ⟨rfl, ?_⟩
    rw [consoleFormat_encode cps1 h1, consoleFormat_encode cps2 h2, heq,
      consoleFormat_encode (cps1 ++ cps2) (by rw [← heq]; exact h)]
    simp
  · have h1 : ∀ x ∈ cps1, ValidScalar x := fun x hx =>
      h x (by rw [heq]; exact List.mem_append_left _ hx)
    have h2 : ∀ x ∈ c :: cps2, ValidScalar x := fun x hx =>
      h x (by rw [heq]; exact List.mem_append_right _ hx)
    have hc : ValidScalar c := h2 c (by simp)
    have e1 : readerStep [] (encodeUtf8 cps1 ++ p) =
        ⟨p, encodeUtf8 cps1 ++ p, consoleFormat (encodeUtf8 cps1)⟩ := by
      rw [readerStep_eq, List.nil_append, stripTrail_encode_partial cps1 c hc p q hpq hp hq]
    have hb2 : p ++ (q ++ encodeUtf8 cps2) = encodeUtf8 (c :: cps2) := by
      rw [encodeUtf8_cons, ← List.append_assoc, ← hpq]
    have e2 : readerStep p (q ++ encodeUtf8 cps2) =
        ⟨[], encodeUtf8 (c :: cps2), consoleFormat (encodeUtf8 (c :: cps2))⟩ := by
      rw [readerStep_eq, hb2, stripTrail_encode (c :: cps2) h2]
    rw [ht, hd, e1]
    dsimp only
    rw [e2]
    refine ⟨rfl, ?_⟩
    rw [consoleFormat_encode cps1 h1, consoleFormat_encode (c :: cps2) h2, heq,
      consoleFormat_encode (cps1 ++ c :: cps2) (by rw [← heq]; exact h)]
    simp

/-- C1 witness: the two-byte character U+00E9 split between its bytes. -/
theorem c1_split_reassembly_witness :
    (readerStep (readerStep [] ((encodeUtf8 [233]).take 1)).trail
        ((encodeUtf8 [233]).drop 1)).trail = [] ∧
    (readerStep [] ((encodeUtf8 [233]).take 1)).rendered ++
      (readerStep (readerStep [] ((encodeUtf8 [233]).take 1)).trail
        ((encodeUtf8 [233]).drop 1)).rendered = consoleFormat (encodeUtf8 [233]) :=
  c1_split_reassembly [233] (by decide) 1

/-- C2: `formatCodePoint`, the per-code-point body of `consoleFormat`, is
total and agrees on all of [0x00, 0x10FFFF] with `renderSpec`, the policy
written from the spec's words (printable ASCII, TAB, CR, LF and
[0x80, 0x513] as themselves, other code points below 0x80 as lowercase
`\xHH`, [0x514, 0xFFFF] as `\uHHHH`, [0x10000, 0x10FFFF] as the standard
UTF-16 surrogate pair); moreover for a valid scalar, `consoleFormat` of
its UTF-8 encoding renders exactly that policy. -/
theorem c2_render_policy (cp : Nat) (h : cp ≤ 0x10FFFF) :
    formatCodePoint cp = renderSpec cp ∧
    (ValidScalar cp → consoleFormat (encodeChar cp) = renderSpec cp) := by
  have hmain : formatCodePoint cp = renderSpec cp := by
    by_cases h1 : cp < 0x80
    · have hd : ∀ x, x < 0x80 → formatCodePoint x = renderSpec x := by decide
      exact hd cp h1
    · by_cases h2 : cp ≤ 0x513
      · unfold formatCodePoint renderSpec
        rw [if_neg h1, if_pos h2, if_neg h1, if_pos h2]
      · by_cases h3 : cp < 0x10000
        · unfold formatCodePoint renderSpec
          rw [if_neg h1, if_neg h2, if_pos h3, if_neg h1, if_neg h2, if_pos h3]
        · unfold formatCodePoint renderSpec
          rw [if_neg h1, if_neg h2, if_neg h3, if_pos (show cp < 0x110000 by omega),
            if_neg h1, if_neg h2, if_neg h3, if_pos h]
          rw [surrHi_spec cp (by omega) h, surrLo_spec cp]
          simp [List.append_assoc]
  refine ⟨hmain, fun hv => ?_⟩
  have he : consoleFormat (encodeChar cp) = formatCodePoint cp := by
    have h0 : encodeChar cp = encodeUtf8 [cp] := by
      rw [encodeUtf8_cons, encodeUtf8_nil, List.append_nil]
    rw [h0, consoleFormat_encode [cp] (by intro x hx; simp at hx; rw [hx]; exact hv)]
    simp
  rw [he, hmain]

/-- C2 witness: the policy at U+1F600, rendered as a surrogate pair. -/
theorem c2_render_policy_witness :
    formatCodePoint 0x1F600 = renderSpec 0x1F600 ∧
    (ValidScalar 0x1F600 → consoleFormat (encodeChar 0x1F600) = renderSpec 0x1F600) :=
  c2_render_policy 0x1F600 (by decide)

/-- C7 counterexample: over the remote chunk stream [[0xC3], [0xA9]] (the
two bytes of U+00E9 split across receives) the reader logs the held-back
trail byte twice — the log is [0xC3, 0xC3, 0xA9], not the received
[0xC3, 0xA9] — because `log.write` runs after the held trail is prepended
(line 398) and before the new trail is stripped (line 407). -/
theorem c7_trail_logged_twice :
    (readerRun [] [[195], [169]]).logged = [195, 195, 169] ∧
    (decide ((readerRun [] [[195], [169]]).logged = [195, 169])) = false := by
  exact ⟨by decide, by decide⟩

lemma readerRun_log_all_complete (chunks : List (List Nat))
    (h : ∀ c ∈ chunks, (stripTrail c).2 = []) :
    (readerRun [] chunks).logged = chunks.flatten := by
  induction chunks with
  | nil => rfl
  | cons c cs ih =>
    have hs : readerStep [] c = ⟨[], c, consoleFormat (stripTrail c).1⟩ := by
      rw [readerStep_eq, List.nil_append, h c (by simp)]
    simp only [readerRun]
    rw [hs]
    dsimp only
    rw [ih fun x hx => h x (by simp [hx])]
    simp

/-- C7 (amended): the log sink receives the raw bytes, never the rendered
display form, but not an exact copy: on the local-to-remote side one LF is
appended per received chunk (not per line); on the remote-to-local side
the reader logs each received chunk with the previously held trail
prepended, so held-back trail bytes are logged twice — the log equals
the concatenation of the received bytes exactly when no receive ends in a
partial multi-byte sequence. -/
theorem c7_log_shape :
    (∀ buf chunk : List Nat, chunk ≠ [] → (consoleStep buf chunk).logged = chunk ++ [10]) ∧
    (∀ chunks : List (List Nat), (∀ c ∈ chunks, (stripTrail c).2 = []) →
      (readerRun [] chunks).logged = chunks.flatten) := by
  constructor
  · intro buf chunk hne
    rw [consoleStep_eq buf chunk hne]
    split
    · rfl
    · split <;> rfl
  · exact readerRun_log_all_complete
